import Mathlib

/-!
Verification of the castle storage engine against its specification.

The development shallowly embeds the data model and operations of the
kernel sources (`castle_objects.c`, `castle_versions.c`, `castle_transfer.c`,
`castle_main.c`).  C byte buffers become `List Nat` (one `Nat` per byte),
machine integers become `Nat`/`Int` with explicit `% 2 ^ w` where overflow
matters, kernel pointer structures become inductive trees, and fallible or
asserting code returns `Option`/`Except`/sum-like result types.
-/

namespace Castle

/-! ## Constants

`castle.h` is not part of the provided sources; the block size matches the
`PAGE_SIZE` pages moved by the transfer engine, and the fixed part of the
`c_vl_bkey_t` header is 16 bytes per spec §4.2 (H = 16 + 4·N). -/

def C_BLK_SIZE : Nat := 4096

/-- `OBJ_IO_MAX_BUFFER_SIZE` from castle_objects.c (in `C_BLK_SIZE` blocks). -/
def OBJ_IO_MAX_BUFFER_SIZE : Nat := 10

/-- Size of the fixed `c_vl_bkey_t` header (before the dim-head array). -/
def BKEY_HDR_BASE : Nat := 16

def KEY_DIMENSION_NEXT_FLAG : Nat := 1

/-- `KEY_DIMENSION_HEADER(_off, _flags)` is `((_off) << 8) | ((_flags) & 0xff)`
computed in `uint32_t`.  Since the low 8 bits of `(_off << 8) % 2^32` are zero,
this equals `(_off % 2^24) * 256 + _flags % 256` exactly. -/
def KEY_DIMENSION_HEADER (off flags : Nat) : Nat := off % 2 ^ 24 * 256 + flags % 256

/-- `KEY_DIMENSION_OFFSET(_dim_head)`: `(_dim_head) >> 8`. -/
def KEY_DIMENSION_OFFSET (dimHead : Nat) : Nat := dimHead / 256

/-- `KEY_DIMENSION_FLAGS(_dim_head)`: `(_dim_head) & 0xff`. -/
def KEY_DIMENSION_FLAGS (dimHead : Nat) : Nat := dimHead % 256

/-! ## Key types

`c_vl_okey_t` is a dimension count plus an array of length-prefixed byte
strings; as a Lean value the list of dimensions carries both.  `c_vl_bkey_t`
is a flat buffer: `length` and `nr_dims` words, the packed dim-head array,
then the payload bytes.  `payload` holds the buffer contents from absolute
offset `16 + 4 * nr_dims` (the header size) onwards; the offsets stored in
`dim_head` remain absolute, as in the C. -/

structure c_vl_okey where
  dims : List (List Nat)
deriving DecidableEq

structure c_vl_bkey where
  length : Nat
  nr_dims : Nat
  dim_head : List Nat
  payload : List Nat
deriving DecidableEq

/-- Absolute offset at which the payload region starts: `sizeof(c_vl_bkey_t) + 4*nr_dims`. -/
def c_vl_bkey.hdr (k : c_vl_bkey) : Nat := BKEY_HDR_BASE + 4 * k.nr_dims

/-- Offset of dimension `dim` (absolute, from the start of the key buffer). -/
def castle_object_btree_key_dim_offset (k : c_vl_bkey) (dim : Nat) : Nat :=
  KEY_DIMENSION_OFFSET (k.dim_head.getD dim 0)

/-- `castle_object_btree_key_dim_length`: end offset is the next dimension's
offset, or `key->length + 4` for the last dimension. -/
def castle_object_btree_key_dim_length (k : c_vl_bkey) (dim : Nat) : Nat :=
  (if dim + 1 < k.nr_dims then castle_object_btree_key_dim_offset k (dim + 1)
   else k.length + 4) -
  castle_object_btree_key_dim_offset k dim

/-- `castle_object_btree_key_dim_get`: the bytes of dimension `dim`.  The C
returns a pointer; reading `dim_length` bytes from it gives this list. -/
def castle_object_btree_key_dim_get (k : c_vl_bkey) (dim : Nat) : List Nat :=
  (k.payload.drop (castle_object_btree_key_dim_offset k dim - k.hdr)).take
    (castle_object_btree_key_dim_length k dim)

def castle_object_btree_key_dim_flags_get (k : c_vl_bkey) (dim : Nat) : Nat :=
  KEY_DIMENSION_FLAGS (k.dim_head.getD dim 0)

/-- Total byte length of a list of dimensions. -/
def okeyLen (dims : List (List Nat)) : Nat := (dims.map List.length).sum

/-- The dim-head array written by `castle_object_btree_key_construct`'s loop:
`dim_head[i] = KEY_DIMENSION_HEADER(payload_offset, 0)` with `payload_offset`
advancing by each dimension's length. -/
def buildDimHeads (payload_offset : Nat) : List (List Nat) → List Nat
  | [] => []
  | d :: ds => KEY_DIMENSION_HEADER payload_offset 0 :: buildDimHeads (payload_offset + d.length) ds

/-- `castle_object_btree_key_construct` with `src_bkey = NULL`, i.e. the
`okey_first_dim == 0` branch: header of size `16 + 4*nr_dims`, dimensions
written contiguously, `length = key_len - 4`. -/
def castle_object_key_convert (okey : c_vl_okey) : c_vl_bkey :=
  let n := okey.dims.length
  let key_len := BKEY_HDR_BASE + 4 * n + okeyLen okey.dims
  { length := key_len - 4
    nr_dims := n
    dim_head := buildDimHeads (BKEY_HDR_BASE + 4 * n) okey.dims
    payload := okey.dims.flatten }

/-- `castle_object_btree_key_convert`: decode a btree key back to an object
key, copying each dimension out with the length computed from consecutive
dim-head offsets.  (Allocation failure is not modelled.) -/
def castle_object_btree_key_convert (bk : c_vl_bkey) : c_vl_okey :=
  ⟨(List.range bk.nr_dims).map fun i => castle_object_btree_key_dim_get bk i⟩

/-! ## Key comparison, successor -/

/-- Sign of `memcmp` on two byte lists (compared elementwise up to the end of
either list; callers pass equal-length prefixes). -/
def memcmpSign : List Nat → List Nat → Int
  | [], _ => 0
  | _, [] => 0
  | a :: as, b :: bs => if a < b then -1 else if b < a then 1 else memcmpSign as bs

/-- `castle_object_key_dim_compare`: lexicographic `memcmp` over the common
prefix, then length, then the NEXT-flag tie-break.  The
`BUG_ON(dim_a_next_flag && dim_b_next_flag)` assertion is modelled by
returning `none`.  The C returns the raw `memcmp` value; only its sign is
ever used, so the model returns the sign. -/
def castle_object_key_dim_compare (dim_a : List Nat) (dim_a_len dim_a_flags : Nat)
    (dim_b : List Nat) (dim_b_len dim_b_flags : Nat) : Option Int :=
  let n := if dim_a_len > dim_b_len then dim_b_len else dim_a_len
  let cmp := memcmpSign (dim_a.take n) (dim_b.take n)
  if cmp ≠ 0 then some cmp
  else if dim_a_len ≠ dim_b_len then some (if dim_a_len > dim_b_len then 1 else -1)
  else
    let dim_a_next_flag := dim_a_flags &&& KEY_DIMENSION_NEXT_FLAG
    let dim_b_next_flag := dim_b_flags &&& KEY_DIMENSION_NEXT_FLAG
    if dim_a_next_flag ≠ 0 then (if dim_b_next_flag ≠ 0 then none else some 1)
    else if dim_b_next_flag ≠ 0 then some (-1)
    else some 0

/-- The dimension loop of `castle_object_btree_key_compare`, starting at
dimension `dim`: first non-zero dimension comparison wins; the `BUG_ON`
(`none`) propagates. -/
def castle_object_btree_key_compare_from (key1 key2 : c_vl_bkey) (dim : Nat) : Option Int :=
  if h : dim < key1.nr_dims then
    match castle_object_key_dim_compare
        (castle_object_btree_key_dim_get key1 dim)
        (castle_object_btree_key_dim_length key1 dim)
        (castle_object_btree_key_dim_flags_get key1 dim)
        (castle_object_btree_key_dim_get key2 dim)
        (castle_object_btree_key_dim_length key2 dim)
        (castle_object_btree_key_dim_flags_get key2 dim) with
    | none => none
    | some cmp =>
        if cmp ≠ 0 then some cmp
        else castle_object_btree_key_compare_from key1 key2 (dim + 1)
  else some 0
termination_by key1.nr_dims - dim

/-- `castle_object_btree_key_compare`: dimension counts order first, then the
dimensions one by one. -/
def castle_object_btree_key_compare (key1 key2 : c_vl_bkey) : Option Int :=
  if key1.nr_dims ≠ key2.nr_dims then
    some (if key1.nr_dims > key2.nr_dims then 1 else -1)
  else castle_object_btree_key_compare_from key1 key2 0

/-- `castle_object_btree_key_dim_inc`: set the NEXT flag on dimension `dim`. -/
def castle_object_btree_key_dim_inc (k : c_vl_bkey) (dim : Nat) : c_vl_bkey :=
  let flags := KEY_DIMENSION_FLAGS (k.dim_head.getD dim 0)
  let offset := KEY_DIMENSION_OFFSET (k.dim_head.getD dim 0)
  let newHead := KEY_DIMENSION_HEADER offset (flags ||| KEY_DIMENSION_NEXT_FLAG)
  { k with dim_head := k.dim_head.set dim newHead }

/-- `castle_object_btree_key_next`: duplicate the key and increment the least
significant dimension.  (The C duplicates the buffer; Lean values are
persistent, so the copy is implicit.) -/
def castle_object_btree_key_next (k : c_vl_bkey) : c_vl_bkey :=
  castle_object_btree_key_dim_inc k (k.nr_dims - 1)

/-- Strict key order: `compare` is defined (no `BUG_ON`) and negative. -/
def bkeyLt (a b : c_vl_bkey) : Prop :=
  ∃ c, castle_object_btree_key_compare a b = some c ∧ c < 0

/-- Two keys with byte-identical payloads: same dimension count, same length
word, same payload bytes and same dim-head offsets; only the per-dimension
flags may differ. -/
def samePayloadKey (k m : c_vl_bkey) : Prop :=
  k.nr_dims = m.nr_dims ∧ k.length = m.length ∧ k.payload = m.payload ∧
  ∀ d, d < k.nr_dims →
    castle_object_btree_key_dim_offset m d = castle_object_btree_key_dim_offset k d

/-! ## Version registry (castle_versions.c) -/

/-- A version-tree node as threaded by `castle_versions_process`.  The C's
`first_child`/`next_sybling` pointer pair is the left-child right-sibling
encoding; `nil` is the NULL pointer.  Only the fields the DFS numbering and
deletion touch are carried. -/
inductive VTree where
  | nil : VTree
  | node (version : Nat) (o_order : Nat) (r_order : Nat)
      (first_child : VTree) (next_sybling : VTree) : VTree
deriving DecidableEq

def VTree.oOrd : VTree → Nat
  | .nil => 0
  | .node _ o _ _ _ => o

def VTree.rOrd : VTree → Nat
  | .nil => 0
  | .node _ _ r _ _ => r

/-- The nodes of a sibling chain: the tree itself, then its
`next_sybling` chain. -/
def VTree.syblings : VTree → List VTree
  | .nil => []
  | .node v o r c s => .node v o r c s :: s.syblings

/-- The children of a node: the sibling chain hanging off `first_child`. -/
def VTree.children : VTree → List VTree
  | .nil => []
  | .node _ _ _ c _ => c.syblings

/-- Every node reachable in the tree. -/
def VTree.allNodes : VTree → List VTree
  | .nil => []
  | .node v o r c s => .node v o r c s :: (c.allNodes ++ s.allNodes)

/-- `castle_versions_insert`: insert a freshly inited version `v` into `p`'s
sibling list so that the list stays sorted by version id in descending
order (`while(sybling_list && sybling_list->version > v->version)`). -/
def castle_versions_insert_sybling (v : Nat) : VTree → VTree
  | .nil => .node v 0 0 .nil .nil
  | .node w o r c s =>
      if w > v then .node w o r c (castle_versions_insert_sybling v s)
      else .node v 0 0 .nil (.node w o r c s)

def castle_versions_insert (p : VTree) (v : Nat) : VTree :=
  match p with
  | .nil => .nil
  | .node w o r c s => .node w o r (castle_versions_insert_sybling v c) s

/-- The order-assignment pass of `castle_versions_process`, written as
structural recursion over the child/sibling encoding.  The C walks the tree
iteratively with parent pointers: `o_order = ++id` at the first visit of a
node; when the walk comes back up, `r_order` is the last id assigned inside
the subtree (for a leaf the source special-cases `r_order = o_order`, which
is the same value); the next sibling is numbered afterwards. -/
def castle_versions_process_dfs (id : Nat) : VTree → Nat × VTree
  | .nil => (id, .nil)
  | .node ver _ _ c s =>
    let o := id + 1
    let pc := castle_versions_process_dfs o c
    let ps := castle_versions_process_dfs pc.1 s
    (ps.1, .node ver o pc.1 pc.2 ps.2)

/-- `castle_versions_process`: after the init list drains, renumber the whole
tree by a DFS from the root, starting from `id = 0`. -/
def castle_versions_process (root : VTree) : VTree :=
  (castle_versions_process_dfs 0 root).2

/-! ## CVT, disk blocks, and the range-query iterator (castle_objects.c) -/

/-- `c_disk_blk_t`: a `(slave uuid, block index)` pair. -/
structure c_disk_blk where
  disk : Nat
  block : Nat
deriving DecidableEq

/-- `c_val_tup_t`: tagged value descriptor. -/
inductive c_val_tup where
  | invalid : c_val_tup
  | tombstone : c_val_tup
  | inline (val : List Nat) : c_val_tup
  | ondisk (cdb : c_disk_blk) (length : Nat) : c_val_tup
deriving DecidableEq

/-- One `(key, version, cvt)` triple produced by the DA range iterator. -/
structure RqEntry where
  k : c_vl_bkey
  v : Nat
  cvt : c_val_tup
deriving DecidableEq

/-- The dimension loop of `castle_object_btree_key_bounds_check`: the first
dimension comparing below `start` returns `(-1, dim)`, the first comparing
above `stop` returns `(1, dim)`; otherwise `0` (the C then leaves
`offending_dim_p` untouched; the model returns `0` for it).  The bound sides
are compared with zero flags. -/
def castle_object_btree_key_bounds_check_from (key : c_vl_bkey) (start stop : c_vl_okey)
    (dim : Nat) : Option (Int × Nat) :=
  if _h : dim < key.nr_dims then
    match castle_object_key_dim_compare
        (castle_object_btree_key_dim_get key dim)
        (castle_object_btree_key_dim_length key dim)
        (castle_object_btree_key_dim_flags_get key dim)
        (start.dims.getD dim []) (start.dims.getD dim []).length 0 with
    | none => none
    | some cmp =>
      if cmp < 0 then some (-1, dim)
      else
        match castle_object_key_dim_compare
            (castle_object_btree_key_dim_get key dim)
            (castle_object_btree_key_dim_length key dim)
            (castle_object_btree_key_dim_flags_get key dim)
            (stop.dims.getD dim []) (stop.dims.getD dim []).length 0 with
        | none => none
        | some cmp2 =>
          if cmp2 > 0 then some (1, dim)
          else castle_object_btree_key_bounds_check_from key start stop (dim + 1)
  else some (0, 0)
termination_by key.nr_dims - dim

/-- `castle_object_btree_key_bounds_check`; the dimension-count mismatch
`BUG()` is modelled as `none`. -/
def castle_object_btree_key_bounds_check (key : c_vl_bkey) (start stop : c_vl_okey) :
    Option (Int × Nat) :=
  if key.nr_dims ≠ start.dims.length ∨ key.nr_dims ≠ stop.dims.length then none
  else castle_object_btree_key_bounds_check_from key start stop 0

/-- `castle_object_btree_key_construct` with `src_bkey != NULL`
(the `okey_first_dim > 0` branch): `memcpy(btree_key, src_bkey,
payload_offset)` copies the header — every dim head included — and the
payload bytes of the dimensions below `okey_first_dim`; the dim heads and
payload from `okey_first_dim` on are then rebuilt from `src_okey` with zero
flags, and `length`/`nr_dims` are overwritten. -/
def castle_object_btree_key_construct_from (src_bkey : c_vl_bkey) (src_okey : c_vl_okey)
    (okey_first_dim : Nat) : c_vl_bkey :=
  let nr_dims := src_okey.dims.length
  let first_okey_offset := castle_object_btree_key_dim_offset src_bkey okey_first_dim
  let key_len := first_okey_offset + okeyLen (src_okey.dims.drop okey_first_dim)
  { length := key_len - 4
    nr_dims := nr_dims
    dim_head := src_bkey.dim_head.take okey_first_dim ++
        buildDimHeads first_okey_offset (src_okey.dims.drop okey_first_dim)
    payload := src_bkey.payload.take (first_okey_offset - src_bkey.hdr) ++
        (src_okey.dims.drop okey_first_dim).flatten }

/-- `castle_object_btree_key_skip`: rebuild from the offending dimension on
from the start key and, when the bounds check reported a non-zero direction
(`if(bigger)` in C, where the value passed is `1` or `-1`), set the NEXT
flag on the offending dimension. -/
def castle_object_btree_key_skip (old_key : c_vl_bkey) (start : c_vl_okey)
    (offending_dim : Nat) (bigger : Int) : c_vl_bkey :=
  let new_key := castle_object_btree_key_construct_from old_key start offending_dim
  if bigger ≠ 0 then castle_object_btree_key_dim_inc new_key offending_dim else new_key

/-- Modelled from the spec: the inner `castle_da_rq_iter` lives in
castle_da.c, which is not part of the sources.  Per spec §4.5 it is a sorted
per-DA stream of entries, represented here as the list of entries it has yet
to produce (`has_next` = nonemptiness, `next` = take the head);
`skip(next_key)` "fast-forwards past keys below a given lower bound"
(spec glossary), dropping the leading entries whose key compares below the
bound. -/
def castle_da_rq_iter_skip (entries : List RqEntry) (bound : c_vl_bkey) : List RqEntry :=
  entries.dropWhile fun e =>
    match castle_object_btree_key_compare e.k bound with
    | some c => decide (c < 0)
    | none => false

/-- The `while(1)` loop of `castle_objects_rq_iter_has_next`: pull the next
entry from the DA iterator; if it bounds-checks to `0`, cache it (returned
here together with the rest of the stream); otherwise build the skip key and
skip.  `none` when the stream drains (`has_next` returns 0); the
dimension-count `BUG()` inside the bounds check also stops the iteration. -/
def castle_objects_rq_iter_has_next_loop (start stop : c_vl_okey) :
    List RqEntry → Option (RqEntry × List RqEntry)
  | [] => none
  | e :: rest =>
    match castle_object_btree_key_bounds_check e.k start stop with
    | none => none
    | some (bigger, offending_dim) =>
      if bigger = 0 then some (e, rest)
      else
        castle_objects_rq_iter_has_next_loop start stop
          (castle_da_rq_iter_skip rest
            (castle_object_btree_key_skip e.k start offending_dim bigger))
termination_by l => l.length
decreasing_by
  simp only [castle_da_rq_iter_skip, List.length_cons]
  exact Nat.lt_succ_of_le (List.dropWhile_sublist _).length_le

/-- All entries a client obtains by repeatedly calling `has_next`/`next` on
the range-query iterator, starting from inner stream `entries`.  (The guard
on the recursive call is discharged below: a successful `has_next` always
consumes at least one inner entry.) -/
def castle_objects_rq_iter_emitted (start stop : c_vl_okey) (entries : List RqEntry) :
    List RqEntry :=
  match castle_objects_rq_iter_has_next_loop start stop entries with
  | none => []
  | some (e, rest) =>
      if _h : rest.length < entries.length then
        e :: castle_objects_rq_iter_emitted start stop rest
      else []
termination_by entries.length

/-- Strict ascending order on range-query entries, by B-tree key compare. -/
def RqEntryLt (a b : RqEntry) : Prop := bkeyLt a.k b.k

/-! ## ONDISK write and read streaming (castle_objects.c) -/

/-- `castle_object_write_next_cdb`: the cdb at which the next write buffer
window is acquired once the current one fills.  `nr_blocks` is computed from
the *remaining* `data_length` — the size of the upcoming window — and the
next block index is `old_cdb.block + nr_blocks`. -/
def castle_object_write_next_cdb (old_cdb : c_disk_blk) (data_length : Nat) : c_disk_blk :=
  let data_c2b_length := if data_length > OBJ_IO_MAX_BUFFER_SIZE * C_BLK_SIZE
    then OBJ_IO_MAX_BUFFER_SIZE * C_BLK_SIZE else data_length
  let nr_blocks := (data_c2b_length - 1) / C_BLK_SIZE + 1
  ⟨old_cdb.disk, old_cdb.block + nr_blocks⟩

/-- The window size (in blocks) pinned by `castle_object_write_buffer_alloc`
for `data_length` bytes outstanding (same computation as in
`castle_object_write_next_cdb`). -/
def castle_object_write_buffer_nr_blocks (data_length : Nat) : Nat :=
  let data_c2b_length := if data_length > OBJ_IO_MAX_BUFFER_SIZE * C_BLK_SIZE
    then OBJ_IO_MAX_BUFFER_SIZE * C_BLK_SIZE else data_length
  (data_c2b_length - 1) / C_BLK_SIZE + 1

/-- The read side: `__castle_object_get_complete` continues the stream at
`(same disk, old block + OBJ_IO_MAX_BUFFER_SIZE)`. -/
def castle_object_get_next_cdb (old_cdb : c_disk_blk) : c_disk_blk :=
  ⟨old_cdb.disk, old_cdb.block + OBJ_IO_MAX_BUFFER_SIZE⟩

/-! ## The 900-version quota (castle_versions.c, castle_version_add) -/

/-- The module-lifetime state relevant to the quota: the `static atomic_t
version_cnt` inside `castle_version_add`. -/
structure VersionsModuleState where
  version_cnt : Nat
deriving DecidableEq

/-- The quota charge of one `castle_version_add` call:
`atomic_inc_return(&version_cnt) > 900` makes the call return NULL.  The
counter is incremented whether or not the call succeeds, and no other
function in castle_versions.c touches it. -/
def castle_version_add_quota (s : VersionsModuleState) : VersionsModuleState × Bool :=
  (⟨s.version_cnt + 1⟩, decide (s.version_cnt + 1 ≤ 900))

/-- Registry operations as seen by the quota counter: `add` is any
`castle_version_add` call — from `castle_versions_zero_init` (the bootstrap
root), from the `castle_versions_read` restore loop, or from
`castle_version_new` — and `deleteTree` is `castle_version_tree_delete`,
which contains no `version_cnt` update. -/
inductive VersionOp where
  | add : VersionOp
  | deleteTree (version : Nat) : VersionOp
deriving DecidableEq

def VersionOp.isAdd : VersionOp → Bool
  | .add => true
  | .deleteTree _ => false

def versionOpStep (s : VersionsModuleState) : VersionOp → VersionsModuleState
  | .add => (castle_version_add_quota s).1
  | .deleteTree _ => s

def versionOpsRun (s : VersionsModuleState) (ops : List VersionOp) : VersionsModuleState :=
  ops.foldl versionOpStep s

/-! ## Version tree deletion (castle_versions.c) -/

/-- The registry tree as `castle_version_tree_delete` sees it: version id,
the `CV_ATTACHED_BIT` flag, and the `first_child`/`next_sybling` pointers
(left-child right-sibling encoding, `nil` = NULL).  Only versions threaded
into the tree — i.e. inited ones — appear. -/
inductive DVTree where
  | nil : DVTree
  | node (version : Nat) (attached : Bool) (first_child next_sybling : DVTree) : DVTree
deriving DecidableEq

/-- Whether deleting every node of this sibling chain (each node's subtree
first, children before parents, left to right — the leftmost-leaf unwind of
`castle_version_tree_delete`) avoids the
`BUG_ON(test_bit(CV_ATTACHED_BIT, &v->flags))` in `castle_version_delete`.
The short-circuit `&&` mirrors the fact that deletion stops at the first
attached node it tries to peel. -/
def castle_version_delete_chain_ok : DVTree → Bool
  | .nil => true
  | .node _ att c s =>
      castle_version_delete_chain_ok c && !att && castle_version_delete_chain_ok s

/-- Peeling the subtree rooted at one node (its siblings are not part of the
deletion). -/
def castle_subtree_delete_ok : DVTree → Bool
  | .nil => true
  | .node _ att c _ => castle_version_delete_chain_ok c && !att

/-- `castle_versions_hash_get` followed by the descent: find the subtree
rooted at `ver`, detached from its sibling chain. -/
def DVTree.findVersion : DVTree → Nat → Option DVTree
  | .nil, _ => none
  | .node v att c s, ver =>
      if v = ver then some (.node v att c .nil)
      else match c.findVersion ver with
        | some t => some t
        | none => s.findVersion ver

/-- `castle_versions_drop` composed over the whole subtree: the deleted
version's place in its parent's child list is taken by its next sibling. -/
def DVTree.removeVersion : DVTree → Nat → DVTree
  | .nil, _ => .nil
  | .node v att c s, ver =>
      if v = ver then s
      else .node v att (c.removeVersion ver) (s.removeVersion ver)

def DVTree.rootVersion : DVTree → Option Nat
  | .nil => none
  | .node v _ _ _ => some v

def EINVAL : Int := 22

/-- Outcome of `castle_version_tree_delete`: a new registry, an errno
returned to the caller (registry untouched on the not-found path), or a
kernel `BUG_ON` assertion failure. -/
inductive DeleteResult where
  | ok (registry : DVTree) : DeleteResult
  | err (errno : Int) : DeleteResult
  | bug : DeleteResult
deriving DecidableEq

/-- `castle_version_tree_delete`: an unknown version id returns `-EINVAL`
before any mutation; otherwise leaves of the subtree are peeled bottom-up,
each peel running `castle_version_delete`, whose
`BUG_ON(CV_ATTACHED_BIT set)` is the `bug` outcome.  Deleting the registry
root also ends in `-EINVAL` (after destroying the whole tree): the final
`castle_version_delete` returns the root's NULL parent. -/
def castle_version_tree_delete (root : DVTree) (version : Nat) : DeleteResult :=
  match root.findVersion version with
  | none => .err (-EINVAL)
  | some v =>
      if castle_subtree_delete_ok v = false then .bug
      else if root.rootVersion = some version then .err (-EINVAL)
      else .ok (root.removeVersion version)

/-! ## Transfer engine (castle_transfer.c) -/

def ENOMEM : Int := 12

/-- `EIO` (5): backing-device I/O error. -/
def EIO_errno : Int := 5

def ENOENT : Int := 2

/-- `ENOSPC` (28) is the errno meaning "no space left on device" — the
errno the spec's NoSpace error kind denotes.  castle_transfer.c never uses
it. -/
def ENOSPC : Int := 28

def INVAL_DISK_BLK : c_disk_blk := ⟨0xFFFFFFFF, 0xFFFFFFFF⟩

def DISK_BLK_INVAL (cdb : c_disk_blk) : Bool := cdb = INVAL_DISK_BLK

/-- Outcome of one `castle_move_block` call together with its eventual
`castle_do_transfer_callback` completion. -/
inductive MoveOutcome where
  | progressOnly : MoveOutcome
  | cancelled (err : Int) : MoveOutcome
  | moved : MoveOutcome
deriving DecidableEq

/-- `castle_do_transfer_callback`: a not-uptodate source read cancels the
tree iterator with `-EIO_errno`; otherwise the page is copied, both buffers are
released, the source block freed and progress bumped. -/
def castle_do_transfer_callback (uptodate : Bool) : MoveOutcome :=
  if !uptodate then .cancelled (-EIO_errno) else .moved

/-- `castle_move_block`, its environment passed explicitly: whether the
block already lies on the destination set, the cdb handed out by
`castle_transfer_get_destination`, and whether the source buffer is (or
after the submitted read completes) up to date.  An already-correct block
only bumps progress; an `INVAL_DISK_BLK` destination cancels the iterator
with `-ENOMEM`; otherwise the callback completes the move. -/
def castle_move_block (on_correct_disk : Bool) (dest_db : c_disk_blk)
    (src_uptodate : Bool) : MoveOutcome :=
  if on_correct_disk then .progressOnly
  else if DISK_BLK_INVAL dest_db then .cancelled (-ENOMEM)
  else castle_do_transfer_callback src_uptodate

/-- Buffer pin events of a block move; buffer 0 is the source c2p, buffer 1
the destination c2p. -/
inductive PinEvent where
  | get (buf : Nat) : PinEvent
  | lock (buf : Nat) : PinEvent
  | unlock (buf : Nat) : PinEvent
  | put (buf : Nat) : PinEvent
deriving DecidableEq

/-- The pin/lock event trace of one `castle_move_block` call followed by its
completion: pin+lock the source; if the destination allocation fails,
unlock+put the source before cancelling; otherwise pin+lock the
destination, and in `castle_do_transfer_callback` either release both
buffers (uptodate) or — on the not-uptodate path — cancel the iterator and
return without touching either buffer. -/
def castle_move_block_pin_trace (on_correct_disk : Bool) (dest_db : c_disk_blk)
    (uptodate : Bool) : List PinEvent :=
  if on_correct_disk then []
  else
    [.get 0, .lock 0] ++
    (if DISK_BLK_INVAL dest_db then [.unlock 0, .put 0]
     else [.get 1, .lock 1] ++
       (if uptodate then [.unlock 0, .put 0, .unlock 1, .put 1] else []))

/-- Both buffers released at completion: every `castle_cache_page_get`
matched by a `put_c2p` and every `lock_c2p` by an `unlock_c2p`, for the
source (0) and the destination (1). -/
def pinBalanced (tr : List PinEvent) : Prop :=
  tr.count (.get 0) = tr.count (.put 0) ∧ tr.count (.lock 0) = tr.count (.unlock 0) ∧
  tr.count (.get 1) = tr.count (.put 1) ∧ tr.count (.lock 1) = tr.count (.unlock 1)

/-! ## FS superblocks and mount (castle_main.c) -/

/-- `struct castle_fs_superblock` (field values as machine words). -/
structure castle_fs_superblock where
  magic1 : Nat
  magic2 : Nat
  magic3 : Nat
  salt : Nat
  peper : Nat
  fwd_tree_disk1 : Nat
  fwd_tree_block1 : Nat
  fwd_tree_disk2 : Nat
  fwd_tree_block2 : Nat
  rev_tree_disk1 : Nat
  rev_tree_block1 : Nat
  rev_tree_disk2 : Nat
  rev_tree_block2 : Nat
deriving DecidableEq

def castle_fs_superblock_validate (fs_sb : castle_fs_superblock) : Int :=
  if fs_sb.magic1 ≠ 0x19731121 then -1
  else if fs_sb.magic2 ≠ 0x19880624 then -2
  else if fs_sb.magic3 ≠ 0x19821120 then -3
  else 0

/-- `castle_fs_superblock_read` for one slave: the input is the superblock
the block layer delivers (`none` models a failed `castle_sub_block_read`);
a read superblock must then pass magic validation. -/
def castle_fs_superblock_read (r : Option castle_fs_superblock) :
    Option castle_fs_superblock :=
  match r with
  | none => none
  | some fs_sb => if castle_fs_superblock_validate fs_sb ≠ 0 then none else some fs_sb

/-- The superblock scan loop of `castle_fs_init` over the slave list, with
the saved `castle_fs_super` as accumulator (`none` while `first` is set).
A slave whose superblock fails to read or validate is skipped
(`continue` after a printk); the first valid superblock is saved; a later
valid superblock that does not `memcmp` equal (structure equality for the
packed struct) returns `-EINVAL`; if the scan ends with `first` still set,
`-ENOENT`. -/
def castle_fs_init_scan (slaves : List (Option castle_fs_superblock))
    (saved : Option castle_fs_superblock) : Except Int castle_fs_superblock :=
  match slaves with
  | [] => match saved with
      | none => .error (-ENOENT)
      | some sb => .ok sb
  | r :: rest =>
    match castle_fs_superblock_read r with
    | none => castle_fs_init_scan rest saved
    | some fs_sb =>
      match saved with
      | none => castle_fs_init_scan rest (some fs_sb)
      | some sb =>
          if fs_sb ≠ sb then .error (-EINVAL) else castle_fs_init_scan rest saved

/-- `castle_fs_init` up to and including the superblock agreement check (the
subsequent version-tree read is external block I/O; the `-EEXIST`
already-inited fast path is not modelled): an empty slave list fails
`-ENOENT`, then the slaves are scanned. -/
def castle_fs_init (slaves : List (Option castle_fs_superblock)) :
    Except Int castle_fs_superblock :=
  if slaves = [] then .error (-ENOENT) else castle_fs_init_scan slaves none

/-- The valid superblocks among the slaves' reads: those that read
successfully and pass magic validation. -/
def validSuperblocks (slaves : List (Option castle_fs_superblock)) :
    List castle_fs_superblock :=
  slaves.filterMap castle_fs_superblock_read

/-! ### Round-trip lemmas -/

theorem okeyLen_take_le (ds : List (List Nat)) (i : Nat) :
    okeyLen (ds.take i) ≤ okeyLen ds := by
  induction ds generalizing i with
  | nil => simp [okeyLen]
  | cons d ds ih =>
    cases i with
    | zero => simp [okeyLen]
    | succ i => simpa [okeyLen, List.take_succ_cons] using ih i

theorem okeyLen_take_succ (ds : List (List Nat)) (i : Nat) (hi : i < ds.length) :
    okeyLen (ds.take (i + 1)) = okeyLen (ds.take i) + (ds.getD i []).length := by
  induction ds generalizing i with
  | nil => simp at hi
  | cons d ds ih =>
    cases i with
    | zero => simp [okeyLen]
    | succ i =>
      have := ih i (by simpa using hi)
      simp only [List.take_succ_cons, okeyLen, List.map_cons, List.sum_cons, List.getD_cons_succ]
      simp only [okeyLen] at this
      omega

theorem okeyLen_eq_of_last (ds : List (List Nat)) (i : Nat) (hi : i + 1 = ds.length) :
    okeyLen ds = okeyLen (ds.take i) + (ds.getD i []).length := by
  have h := okeyLen_take_succ ds i (by omega)
  rw [hi, List.take_length] at h
  exact h

theorem buildDimHeads_getD (ds : List (List Nat)) (p i : Nat) (hi : i < ds.length) :
    (buildDimHeads p ds).getD i 0 = KEY_DIMENSION_HEADER (p + okeyLen (ds.take i)) 0 := by
  induction ds generalizing p i with
  | nil => simp at hi
  | cons d ds ih =>
    cases i with
    | zero => simp [buildDimHeads, okeyLen]
    | succ i =>
      have := ih (p + d.length) i (by simpa using hi)
      simp only [buildDimHeads, List.getD_cons_succ, this, List.take_succ_cons, okeyLen,
        List.map_cons, List.sum_cons]
      congr 1
      omega

theorem offset_header_zero (off : Nat) (hoff : off < 2 ^ 24) :
    KEY_DIMENSION_OFFSET (KEY_DIMENSION_HEADER off 0) = off := by
  unfold KEY_DIMENSION_OFFSET KEY_DIMENSION_HEADER
  rw [Nat.mod_eq_of_lt hoff]
  omega

theorem join_drop_okeyLen (ds : List (List Nat)) (i : Nat) :
    ds.flatten.drop (okeyLen (ds.take i)) = (ds.drop i).flatten := by
  induction ds generalizing i with
  | nil => simp
  | cons d ds ih =>
    cases i with
    | zero => simp [okeyLen]
    | succ i =>
      simp only [List.take_succ_cons, okeyLen, List.map_cons, List.sum_cons, List.flatten_cons,
        List.drop_succ_cons]
      rw [← List.drop_drop, List.drop_left]
      exact ih i

theorem join_extract (ds : List (List Nat)) (i : Nat) (hi : i < ds.length) :
    (ds.flatten.drop (okeyLen (ds.take i))).take (ds.getD i []).length = ds.getD i [] := by
  rw [join_drop_okeyLen]
  have hdrop : ds.drop i = ds.getD i [] :: ds.drop (i + 1) := by
    rw [List.getD_eq_getElem ds [] hi]
    exact List.drop_eq_getElem_cons hi
  rw [hdrop, List.flatten_cons, List.take_left]

theorem map_range_getD (l : List (List Nat)) :
    ((List.range l.length).map fun i => l.getD i []) = l := by
  induction l with
  | nil => simp
  | cons a l ih =>
    simp only [List.length_cons, List.range_succ_eq_map, List.map_cons, List.getD_cons_zero,
      List.map_map]
    refine congrArg (a :: ·) ?_
    have hcomp : ((fun i => (a :: l).getD i []) ∘ Nat.succ) = fun i => l.getD i [] := by
      funext i
      simp [List.getD_cons_succ]
    rw [hcomp]
    exact ih

/-- Offsets of the encoded key: `16 + 4n` plus the lengths of earlier dims. -/
theorem encode_dim_offset (okey : c_vl_okey) (i : Nat) (hi : i < okey.dims.length)
    (hfit : BKEY_HDR_BASE + 4 * okey.dims.length + okeyLen okey.dims < 2 ^ 24) :
    castle_object_btree_key_dim_offset (castle_object_key_convert okey) i =
      BKEY_HDR_BASE + 4 * okey.dims.length + okeyLen (okey.dims.take i) := by
  unfold castle_object_btree_key_dim_offset castle_object_key_convert
  simp only
  rw [buildDimHeads_getD okey.dims _ i hi]
  exact offset_header_zero _ (by have := okeyLen_take_le okey.dims i; omega)

/-- Lengths of the encoded key's dimensions. -/
theorem encode_dim_length (okey : c_vl_okey) (i : Nat) (hi : i < okey.dims.length)
    (hfit : BKEY_HDR_BASE + 4 * okey.dims.length + okeyLen okey.dims < 2 ^ 24) :
    castle_object_btree_key_dim_length (castle_object_key_convert okey) i =
      (okey.dims.getD i []).length := by
  unfold castle_object_btree_key_dim_length
  have hnr : (castle_object_key_convert okey).nr_dims = okey.dims.length := rfl
  rw [hnr, encode_dim_offset okey i hi hfit]
  by_cases hlast : i + 1 < okey.dims.length
  · rw [if_pos hlast, encode_dim_offset okey (i + 1) hlast hfit,
      okeyLen_take_succ okey.dims i hi]
    omega
  · rw [if_neg hlast]
    have hlen : (castle_object_key_convert okey).length + 4 =
        BKEY_HDR_BASE + 4 * okey.dims.length + okeyLen okey.dims := by
      show BKEY_HDR_BASE + 4 * okey.dims.length + okeyLen okey.dims - 4 + 4 = _
      unfold BKEY_HDR_BASE
      omega
    rw [hlen, okeyLen_eq_of_last okey.dims i (by omega)]
    omega

/-- The encoded key's dimension `i` reads back as `okey.dims[i]`. -/
theorem encode_dim_get (okey : c_vl_okey) (i : Nat) (hi : i < okey.dims.length)
    (hfit : BKEY_HDR_BASE + 4 * okey.dims.length + okeyLen okey.dims < 2 ^ 24) :
    castle_object_btree_key_dim_get (castle_object_key_convert okey) i =
      okey.dims.getD i [] := by
  unfold castle_object_btree_key_dim_get
  rw [encode_dim_length okey i hi hfit, encode_dim_offset okey i hi hfit]
  have hhdr : (castle_object_key_convert okey).hdr =
      BKEY_HDR_BASE + 4 * okey.dims.length := rfl
  rw [hhdr]
  have hpay : (castle_object_key_convert okey).payload = okey.dims.flatten := rfl
  rw [hpay]
  have : BKEY_HDR_BASE + 4 * okey.dims.length + okeyLen (okey.dims.take i) -
      (BKEY_HDR_BASE + 4 * okey.dims.length) = okeyLen (okey.dims.take i) := by omega
  rw [this]
  exact join_extract okey.dims i hi

/-- C1: for every schema-valid object key `O` (at least one dimension, total
encoded size below the 24-bit offset limit of the packed dim heads), decoding
the encoded B-tree key returns `O` dimension-for-dimension and
byte-for-byte: `castle_object_btree_key_convert (castle_object_key_convert O) = O`. -/
theorem decode_encode_id (okey : c_vl_okey) (hn : 0 < okey.dims.length)
    (hfit : BKEY_HDR_BASE + 4 * okey.dims.length + okeyLen okey.dims < 2 ^ 24) :
    castle_object_btree_key_convert (castle_object_key_convert okey) = okey := by
  unfold castle_object_btree_key_convert
  have hnr : (castle_object_key_convert okey).nr_dims = okey.dims.length := rfl
  rw [hnr]
  cases okey with
  | mk dims =>
    refine congrArg c_vl_okey.mk ?_
    calc (List.range dims.length).map
          (fun i => castle_object_btree_key_dim_get (castle_object_key_convert ⟨dims⟩) i)
        = (List.range dims.length).map (fun i => dims.getD i []) := by
          refine List.map_congr_left ?_
          intro i hi
          exact encode_dim_get ⟨dims⟩ i (List.mem_range.mp hi) hfit
      _ = dims := map_range_getD dims

/-- Witness for C1 at a concrete two-dimensional key. -/
theorem decode_encode_id_witness :
    0 < (c_vl_okey.mk [[1], [2, 3]]).dims.length ∧
    BKEY_HDR_BASE + 4 * (c_vl_okey.mk [[1], [2, 3]]).dims.length +
      okeyLen (c_vl_okey.mk [[1], [2, 3]]).dims < 2 ^ 24 ∧
    castle_object_btree_key_convert (castle_object_key_convert ⟨[[1], [2, 3]]⟩) =
      ⟨[[1], [2, 3]]⟩ :=
  ⟨by decide, by decide, decode_encode_id ⟨[[1], [2, 3]]⟩ (by decide) (by decide)⟩

/-! ### Successor lemmas (towards C5) -/

theorem memcmpSign_self (l : List Nat) : memcmpSign l l = 0 := by
  induction l with
  | nil => rfl
  | cons a l ih => simp [memcmpSign, ih]

/-- On byte-identical, equal-length dimensions the comparison is decided by
the NEXT flags alone. -/
theorem dim_compare_same_bytes (a : List Nat) (len fa fb : Nat) :
    castle_object_key_dim_compare a len fa a len fb =
      if fa &&& KEY_DIMENSION_NEXT_FLAG ≠ 0 then
        (if fb &&& KEY_DIMENSION_NEXT_FLAG ≠ 0 then none else some 1)
      else if fb &&& KEY_DIMENSION_NEXT_FLAG ≠ 0 then some (-1) else some 0 := by
  unfold castle_object_key_dim_compare
  simp [memcmpSign_self]

theorem offset_header (off flags : Nat) (hoff : off < 2 ^ 24) :
    KEY_DIMENSION_OFFSET (KEY_DIMENSION_HEADER off flags) = off := by
  unfold KEY_DIMENSION_OFFSET KEY_DIMENSION_HEADER
  rw [Nat.mod_eq_of_lt hoff]
  omega

theorem flags_header (off flags : Nat) :
    KEY_DIMENSION_FLAGS (KEY_DIMENSION_HEADER off flags) = flags % 256 := by
  unfold KEY_DIMENSION_FLAGS KEY_DIMENSION_HEADER
  omega

theorem next_nr_dims (k : c_vl_bkey) :
    (castle_object_btree_key_next k).nr_dims = k.nr_dims := rfl

theorem next_length (k : c_vl_bkey) :
    (castle_object_btree_key_next k).length = k.length := rfl

theorem next_payload (k : c_vl_bkey) :
    (castle_object_btree_key_next k).payload = k.payload := rfl

theorem next_head_ne (k : c_vl_bkey) (d : Nat) (hd : d ≠ k.nr_dims - 1) :
    (castle_object_btree_key_next k).dim_head.getD d 0 = k.dim_head.getD d 0 := by
  show (k.dim_head.set (k.nr_dims - 1) _).getD d 0 = _
  rw [List.getD_eq_getElem?_getD, List.getElem?_set_ne (fun hme => hd hme.symm),
    ← List.getD_eq_getElem?_getD]

theorem next_head_last (k : c_vl_bkey) (hn : 0 < k.nr_dims)
    (hlen : k.dim_head.length = k.nr_dims) :
    (castle_object_btree_key_next k).dim_head.getD (k.nr_dims - 1) 0 =
      KEY_DIMENSION_HEADER (castle_object_btree_key_dim_offset k (k.nr_dims - 1))
        (castle_object_btree_key_dim_flags_get k (k.nr_dims - 1) ||| KEY_DIMENSION_NEXT_FLAG) := by
  show (k.dim_head.set (k.nr_dims - 1) _).getD (k.nr_dims - 1) 0 = _
  rw [List.getD_eq_getElem?_getD, List.getElem?_set_self (by omega), Option.getD_some]
  rfl

theorem next_offset (k : c_vl_bkey) (hn : 0 < k.nr_dims)
    (hlen : k.dim_head.length = k.nr_dims)
    (hoff : castle_object_btree_key_dim_offset k (k.nr_dims - 1) < 2 ^ 24) (d : Nat) :
    castle_object_btree_key_dim_offset (castle_object_btree_key_next k) d =
      castle_object_btree_key_dim_offset k d := by
  by_cases hd : d = k.nr_dims - 1
  · subst hd
    show KEY_DIMENSION_OFFSET ((castle_object_btree_key_next k).dim_head.getD (k.nr_dims - 1) 0) = _
    rw [next_head_last k hn hlen, offset_header _ _ hoff]
  · show KEY_DIMENSION_OFFSET ((castle_object_btree_key_next k).dim_head.getD d 0) = _
    rw [next_head_ne k d hd]
    rfl

theorem next_flags_ne (k : c_vl_bkey) (d : Nat) (hd : d ≠ k.nr_dims - 1) :
    castle_object_btree_key_dim_flags_get (castle_object_btree_key_next k) d =
      castle_object_btree_key_dim_flags_get k d := by
  show KEY_DIMENSION_FLAGS ((castle_object_btree_key_next k).dim_head.getD d 0) = _
  rw [next_head_ne k d hd]
  rfl

/-- After `castle_object_btree_key_next`, the last dimension's NEXT flag is set. -/
theorem next_flags_last_and_one (k : c_vl_bkey) (hn : 0 < k.nr_dims)
    (hlen : k.dim_head.length = k.nr_dims) :
    castle_object_btree_key_dim_flags_get (castle_object_btree_key_next k) (k.nr_dims - 1) &&&
      KEY_DIMENSION_NEXT_FLAG = 1 := by
  show KEY_DIMENSION_FLAGS ((castle_object_btree_key_next k).dim_head.getD (k.nr_dims - 1) 0) &&&
      KEY_DIMENSION_NEXT_FLAG = 1
  rw [next_head_last k hn hlen, flags_header]
  unfold KEY_DIMENSION_NEXT_FLAG
  rw [Nat.and_one_is_mod, Nat.mod_mod_of_dvd _ (by norm_num)]
  simp [Nat.or_mod_two_eq_one]

theorem samePayload_dim_length (k m : c_vl_bkey) (hsp : samePayloadKey k m) (d : Nat)
    (hd : d < k.nr_dims) :
    castle_object_btree_key_dim_length m d = castle_object_btree_key_dim_length k d := by
  obtain ⟨hnr, hlen, hpay, hoff⟩ := hsp
  unfold castle_object_btree_key_dim_length
  rw [← hnr, ← hlen, hoff d hd]
  by_cases h1 : d + 1 < k.nr_dims
  · rw [if_pos h1, if_pos h1, hoff (d + 1) h1]
  · rw [if_neg h1, if_neg h1]

theorem samePayload_dim_get (k m : c_vl_bkey) (hsp : samePayloadKey k m) (d : Nat)
    (hd : d < k.nr_dims) :
    castle_object_btree_key_dim_get m d = castle_object_btree_key_dim_get k d := by
  have hl := samePayload_dim_length k m hsp d hd
  obtain ⟨hnr, hlen, hpay, hoff⟩ := hsp
  unfold castle_object_btree_key_dim_get
  rw [hl, hoff d hd, ← hpay]
  have hh : m.hdr = k.hdr := by
    unfold c_vl_bkey.hdr
    rw [hnr]
  rw [hh]

theorem next_dim_length (k : c_vl_bkey) (hn : 0 < k.nr_dims)
    (hlen : k.dim_head.length = k.nr_dims)
    (hoff : castle_object_btree_key_dim_offset k (k.nr_dims - 1) < 2 ^ 24) (d : Nat) :
    castle_object_btree_key_dim_length (castle_object_btree_key_next k) d =
      castle_object_btree_key_dim_length k d := by
  unfold castle_object_btree_key_dim_length
  rw [next_nr_dims, next_length, next_offset k hn hlen hoff d]
  by_cases h1 : d + 1 < k.nr_dims
  · rw [if_pos h1, if_pos h1, next_offset k hn hlen hoff (d + 1)]
  · rw [if_neg h1, if_neg h1]

theorem next_dim_get (k : c_vl_bkey) (hn : 0 < k.nr_dims)
    (hlen : k.dim_head.length = k.nr_dims)
    (hoff : castle_object_btree_key_dim_offset k (k.nr_dims - 1) < 2 ^ 24) (d : Nat) :
    castle_object_btree_key_dim_get (castle_object_btree_key_next k) d =
      castle_object_btree_key_dim_get k d := by
  unfold castle_object_btree_key_dim_get
  rw [next_dim_length k hn hlen hoff d, next_offset k hn hlen hoff d, next_payload]
  rfl

theorem compare_from_stop (k1 k2 : c_vl_bkey) (d : Nat) (h : ¬ d < k1.nr_dims) :
    castle_object_btree_key_compare_from k1 k2 d = some 0 := by
  unfold castle_object_btree_key_compare_from
  rw [dif_neg h]

theorem compare_from_step (k1 k2 : c_vl_bkey) (d : Nat) (h : d < k1.nr_dims) :
    castle_object_btree_key_compare_from k1 k2 d =
      match castle_object_key_dim_compare
          (castle_object_btree_key_dim_get k1 d) (castle_object_btree_key_dim_length k1 d)
          (castle_object_btree_key_dim_flags_get k1 d)
          (castle_object_btree_key_dim_get k2 d) (castle_object_btree_key_dim_length k2 d)
          (castle_object_btree_key_dim_flags_get k2 d) with
      | none => none
      | some cmp =>
          if cmp ≠ 0 then some cmp
          else castle_object_btree_key_compare_from k1 k2 (d + 1) := by
  conv_lhs => unfold castle_object_btree_key_compare_from
  rw [dif_pos h]

/-- `compare(K, successor(K))` walks the shared dimensions and stops at the
last one with `-1` (the successor's NEXT flag wins). -/
theorem compare_from_next_key (k : c_vl_bkey) (hn : 0 < k.nr_dims)
    (hlen : k.dim_head.length = k.nr_dims)
    (hoff : castle_object_btree_key_dim_offset k (k.nr_dims - 1) < 2 ^ 24)
    (hnonext : ∀ d, d < k.nr_dims →
      castle_object_btree_key_dim_flags_get k d &&& KEY_DIMENSION_NEXT_FLAG = 0) :
    ∀ fuel d, k.nr_dims - d = fuel → d < k.nr_dims →
      castle_object_btree_key_compare_from k (castle_object_btree_key_next k) d = some (-1) := by
  intro fuel
  induction fuel with
  | zero =>
    intro d hfd hd
    omega
  | succ fuel ih =>
    intro d hfd hd
    rw [compare_from_step _ _ d hd, next_dim_get k hn hlen hoff d,
      next_dim_length k hn hlen hoff d, dim_compare_same_bytes, hnonext d hd]
    by_cases hdl : d = k.nr_dims - 1
    · subst hdl
      rw [next_flags_last_and_one k hn hlen]
      norm_num
    · rw [next_flags_ne k d hdl, hnonext d hd]
      norm_num
      exact ih (d + 1) (by omega) (by omega)

theorem compare_next_eq (k : c_vl_bkey) (hn : 0 < k.nr_dims)
    (hlen : k.dim_head.length = k.nr_dims)
    (hoff : castle_object_btree_key_dim_offset k (k.nr_dims - 1) < 2 ^ 24)
    (hnonext : ∀ d, d < k.nr_dims →
      castle_object_btree_key_dim_flags_get k d &&& KEY_DIMENSION_NEXT_FLAG = 0) :
    castle_object_btree_key_compare k (castle_object_btree_key_next k) = some (-1) := by
  unfold castle_object_btree_key_compare
  rw [next_nr_dims, if_neg (by omega)]
  exact compare_from_next_key k hn hlen hoff hnonext k.nr_dims 0 (by omega) hn

/-- No key with `K`'s payload bytes sits strictly between `K` and
`successor(K)`: if `compare(K, M) < 0` then `compare(M, successor(K))` is
either undefined (both NEXT, a `BUG_ON` in the C) or non-negative. -/
theorem compare_from_no_key_between (k m : c_vl_bkey) (hsp : samePayloadKey k m)
    (hn : 0 < k.nr_dims)
    (hlen : k.dim_head.length = k.nr_dims)
    (hoff : castle_object_btree_key_dim_offset k (k.nr_dims - 1) < 2 ^ 24)
    (hnonext : ∀ d, d < k.nr_dims →
      castle_object_btree_key_dim_flags_get k d &&& KEY_DIMENSION_NEXT_FLAG = 0) :
    ∀ fuel d a b, k.nr_dims - d = fuel →
      castle_object_btree_key_compare_from k m d = some a → a < 0 →
      castle_object_btree_key_compare_from m (castle_object_btree_key_next k) d = some b →
      0 ≤ b := by
  intro fuel
  induction fuel with
  | zero =>
    intro d a b hfd hkm ha hmn
    rw [compare_from_stop k m d (by omega)] at hkm
    cases hkm
    omega
  | succ fuel ih =>
    intro d a b hfd hkm ha hmn
    have hd : d < k.nr_dims := by omega
    have hdm : d < m.nr_dims := by
      rw [← hsp.1]
      exact hd
    rw [compare_from_step k m d hd, samePayload_dim_get k m hsp d hd,
      samePayload_dim_length k m hsp d hd, dim_compare_same_bytes, hnonext d hd] at hkm
    rw [compare_from_step m _ d hdm, samePayload_dim_get k m hsp d hd,
      samePayload_dim_length k m hsp d hd, next_dim_get k hn hlen hoff d,
      next_dim_length k hn hlen hoff d, dim_compare_same_bytes] at hmn
    by_cases hmd : castle_object_btree_key_dim_flags_get m d &&& KEY_DIMENSION_NEXT_FLAG = 0
    · rw [hmd] at hkm hmn
      norm_num at hkm hmn
      by_cases hdl : d = k.nr_dims - 1
      · rw [compare_from_stop k m (d + 1) (by omega)] at hkm
        cases hkm
        omega
      · rw [next_flags_ne k d hdl, hnonext d hd] at hmn
        norm_num at hmn
        exact ih (d + 1) a b (by omega) hkm ha hmn
    · rw [if_pos hmd] at hkm hmn
      by_cases hdl : d = k.nr_dims - 1
      · subst hdl
        rw [next_flags_last_and_one k hn hlen] at hmn
        norm_num at hmn
        simp at hmn
      · rw [next_flags_ne k d hdl, hnonext d hd] at hmn
        norm_num at hmn
        omega

/-- C5: for every well-formed B-tree key `K` (consistent dim-head array, no
NEXT flags, offsets below the 24-bit packing limit),
`compare(K, successor(K)) < 0`, and no key `M` with payload bytes identical
to `K` satisfies `compare(K, M) < 0` and `compare(M, successor(K)) < 0`. -/
theorem key_next_least_successor (K : c_vl_bkey) (hn : 0 < K.nr_dims)
    (hlen : K.dim_head.length = K.nr_dims)
    (hoff : castle_object_btree_key_dim_offset K (K.nr_dims - 1) < 2 ^ 24)
    (hnonext : ∀ d, d < K.nr_dims →
      castle_object_btree_key_dim_flags_get K d &&& KEY_DIMENSION_NEXT_FLAG = 0) :
    bkeyLt K (castle_object_btree_key_next K) ∧
    ∀ M, samePayloadKey K M →
      ¬(bkeyLt K M ∧ bkeyLt M (castle_object_btree_key_next K)) := by
  constructor
  · exact ⟨-1, compare_next_eq K hn hlen hoff hnonext, by norm_num⟩
  · rintro M hsp ⟨⟨a, hkm, ha⟩, ⟨b, hmn, hb⟩⟩
    have hnr := hsp.1
    unfold castle_object_btree_key_compare at hkm hmn
    rw [if_neg (by omega : ¬ K.nr_dims ≠ M.nr_dims)] at hkm
    rw [next_nr_dims, if_neg (by omega : ¬ M.nr_dims ≠ K.nr_dims)] at hmn
    have := compare_from_no_key_between K M hsp hn hlen hoff hnonext K.nr_dims 0 a b
      (by omega) hkm ha hmn
    omega

/-- Witness for C5 at the concrete encoded key of `[[5]]`. -/
theorem key_next_least_successor_witness :
    (0 < (castle_object_key_convert ⟨[[5]]⟩).nr_dims ∧
     (castle_object_key_convert ⟨[[5]]⟩).dim_head.length =
       (castle_object_key_convert ⟨[[5]]⟩).nr_dims ∧
     castle_object_btree_key_dim_offset (castle_object_key_convert ⟨[[5]]⟩)
       ((castle_object_key_convert ⟨[[5]]⟩).nr_dims - 1) < 2 ^ 24) ∧
    (bkeyLt (castle_object_key_convert ⟨[[5]]⟩)
      (castle_object_btree_key_next (castle_object_key_convert ⟨[[5]]⟩)) ∧
     ∀ M, samePayloadKey (castle_object_key_convert ⟨[[5]]⟩) M →
      ¬(bkeyLt (castle_object_key_convert ⟨[[5]]⟩) M ∧
        bkeyLt M (castle_object_btree_key_next (castle_object_key_convert ⟨[[5]]⟩)))) :=
  ⟨⟨by decide, by decide, by decide⟩,
   key_next_least_successor (castle_object_key_convert ⟨[[5]]⟩)
     (by decide) (by decide) (by decide) (by decide)⟩

theorem VTree.syblings_subset_allNodes (t : VTree) : ∀ x ∈ t.syblings, x ∈ t.allNodes := by
  induction t with
  | nil => intro x hx; simp [syblings] at hx
  | node v o r c s ihc ihs =>
    intro x hx
    simp only [syblings, List.mem_cons] at hx
    simp only [allNodes, List.mem_cons, List.mem_append]
    rcases hx with h | h
    · exact Or.inl h
    · exact Or.inr (Or.inr (ihs x h))

/-- Combined DFS invariant: the returned id is monotone; every node in the
numbered tree has `id < o ≤ id'` and `r ≤ id'`; and every parent/child pair
satisfies `parent.o < child.o ≤ parent.r`. -/
theorem versions_process_dfs_spec (t : VTree) : ∀ id : Nat,
    (id ≤ (castle_versions_process_dfs id t).1) ∧
    (∀ x ∈ (castle_versions_process_dfs id t).2.allNodes,
       id < x.oOrd ∧ x.oOrd ≤ (castle_versions_process_dfs id t).1 ∧
       x.rOrd ≤ (castle_versions_process_dfs id t).1) ∧
    (∀ p ∈ (castle_versions_process_dfs id t).2.allNodes, ∀ x ∈ p.children,
       p.oOrd < x.oOrd ∧ x.oOrd ≤ p.rOrd) := by
  induction t with
  | nil =>
    intro id
    simp [castle_versions_process_dfs, VTree.allNodes]
  | node v o r c s ihc ihs =>
    intro id
    obtain ⟨hc1, hc2, hc3⟩ := ihc (id + 1)
    obtain ⟨hs1, hs2, hs3⟩ := ihs (castle_versions_process_dfs (id + 1) c).1
    simp only [castle_versions_process_dfs]
    refine ⟨by omega, ?_, ?_⟩
    · intro x hx
      simp only [VTree.allNodes, List.mem_cons, List.mem_append] at hx
      rcases hx with rfl | hx | hx
      · simp only [VTree.oOrd, VTree.rOrd]
        exact ⟨by omega, by omega, by omega⟩
      · obtain ⟨h1, h2, h3⟩ := hc2 x hx
        cases x with
        | nil => simp [VTree.oOrd] at h1
        | node xv xo xr xc xs =>
          simp only [VTree.oOrd, VTree.rOrd] at h1 h2 h3 ⊢
          exact ⟨by omega, by omega, by omega⟩
      · obtain ⟨h1, h2, h3⟩ := hs2 x hx
        cases x with
        | nil => simp [VTree.oOrd] at h1
        | node xv xo xr xc xs =>
          simp only [VTree.oOrd, VTree.rOrd] at h1 h2 h3 ⊢
          exact ⟨by omega, by omega, by omega⟩
    · intro p hp x hx
      simp only [VTree.allNodes, List.mem_cons, List.mem_append] at hp
      rcases hp with rfl | hp | hp
      · simp only [VTree.children] at hx
        obtain ⟨h1, h2, h3⟩ :=
          hc2 x (VTree.syblings_subset_allNodes _ x hx)
        cases x with
        | nil => simp [VTree.oOrd] at h1
        | node xv xo xr xc xs =>
          simp only [VTree.oOrd, VTree.rOrd] at h1 h2 ⊢
          exact ⟨by omega, by omega⟩
      · exact hc3 p hp x hx
      · exact hs3 p hp x hx

/-- C3: after every completed `castle_versions_process` run, every inited
non-root version `v` (a node appearing in some parent's child list of the
processed tree) satisfies `v.parent.o_order < v.o_order ≤ v.parent.r_order`. -/
theorem versions_process_order_invariant (t : VTree) (p x : VTree)
    (hp : p ∈ (castle_versions_process t).allNodes) (hx : x ∈ p.children) :
    p.oOrd < x.oOrd ∧ x.oOrd ≤ p.rOrd :=
  (versions_process_dfs_spec t 0).2.2 p hp x hx

/-- Witness for C3 on a concrete three-version tree (root 0 with children 2
and 1, newest first). -/
theorem versions_process_order_invariant_witness :
    (VTree.node 0 1 3 (VTree.node 2 2 2 .nil (VTree.node 1 3 3 .nil .nil)) .nil ∈
      (castle_versions_process
        (VTree.node 0 0 0 (VTree.node 2 0 0 .nil (VTree.node 1 0 0 .nil .nil)) .nil)).allNodes ∧
     VTree.node 2 2 2 .nil (VTree.node 1 3 3 .nil .nil) ∈
      (VTree.node 0 1 3 (VTree.node 2 2 2 .nil (VTree.node 1 3 3 .nil .nil)) .nil).children) ∧
    ((VTree.node 0 1 3 (VTree.node 2 2 2 .nil (VTree.node 1 3 3 .nil .nil)) .nil).oOrd <
      (VTree.node 2 2 2 .nil (VTree.node 1 3 3 .nil .nil)).oOrd ∧
     (VTree.node 2 2 2 .nil (VTree.node 1 3 3 .nil .nil)).oOrd ≤
      (VTree.node 0 1 3 (VTree.node 2 2 2 .nil (VTree.node 1 3 3 .nil .nil)) .nil).rOrd) :=
  ⟨⟨by decide, by decide⟩,
   versions_process_order_invariant
     (VTree.node 0 0 0 (VTree.node 2 0 0 .nil (VTree.node 1 0 0 .nil .nil)) .nil)
     (VTree.node 0 1 3 (VTree.node 2 2 2 .nil (VTree.node 1 3 3 .nil .nil)) .nil)
     (VTree.node 2 2 2 .nil (VTree.node 1 3 3 .nil .nil))
     (by decide) (by decide)⟩

/-! ### Range-iterator lemmas (towards C4) -/

theorem rq_iter_loop_sublist (start stop : c_vl_okey) :
    ∀ (n : Nat) (entries : List RqEntry), entries.length ≤ n →
      ∀ e rest, castle_objects_rq_iter_has_next_loop start stop entries = some (e, rest) →
        List.Sublist (e :: rest) entries := by
  intro n
  induction n with
  | zero =>
    intro entries hlen e rest h
    have h0 : entries = [] := List.length_eq_zero.mp (by omega)
    subst h0
    simp [castle_objects_rq_iter_has_next_loop] at h
  | succ n ih =>
    intro entries hlen e rest h
    cases entries with
    | nil => simp [castle_objects_rq_iter_has_next_loop] at h
    | cons a l =>
      rw [castle_objects_rq_iter_has_next_loop] at h
      rcases hbc : castle_object_btree_key_bounds_check a.k start stop with _ | ⟨bigger, dim⟩
      · rw [hbc] at h
        simp at h
      · rw [hbc] at h
        simp only at h
        by_cases hb : bigger = 0
        · rw [if_pos hb] at h
          obtain ⟨rfl, rfl⟩ := Prod.mk.injEq .. ▸ (Option.some.injEq .. ▸ h)
          exact List.Sublist.refl _
        · rw [if_neg hb] at h
          have hskip := List.dropWhile_sublist
            (l := l) (p := fun e => match castle_object_btree_key_compare e.k
              (castle_object_btree_key_skip a.k start dim bigger) with
              | some c => decide (c < 0)
              | none => false)
          have hlel : (castle_da_rq_iter_skip l
              (castle_object_btree_key_skip a.k start dim bigger)).length ≤ n := by
            have := (List.dropWhile_sublist (l := l) (fun e =>
              match castle_object_btree_key_compare e.k
                (castle_object_btree_key_skip a.k start dim bigger) with
              | some c => decide (c < 0)
              | none => false)).length_le
            simp only [castle_da_rq_iter_skip]
            simp only [List.length_cons] at hlen
            omega
          have hsub := ih _ hlel e rest h
          refine (hsub.trans ?_).cons a
          exact hskip

theorem rq_iter_loop_bounds_zero (start stop : c_vl_okey) :
    ∀ (n : Nat) (entries : List RqEntry), entries.length ≤ n →
      ∀ e rest, castle_objects_rq_iter_has_next_loop start stop entries = some (e, rest) →
        (castle_object_btree_key_bounds_check e.k start stop).map Prod.fst = some 0 := by
  intro n
  induction n with
  | zero =>
    intro entries hlen e rest h
    have h0 : entries = [] := List.length_eq_zero.mp (by omega)
    subst h0
    simp [castle_objects_rq_iter_has_next_loop] at h
  | succ n ih =>
    intro entries hlen e rest h
    cases entries with
    | nil => simp [castle_objects_rq_iter_has_next_loop] at h
    | cons a l =>
      rw [castle_objects_rq_iter_has_next_loop] at h
      rcases hbc : castle_object_btree_key_bounds_check a.k start stop with _ | ⟨bigger, dim⟩
      · rw [hbc] at h
        simp at h
      · rw [hbc] at h
        simp only at h
        by_cases hb : bigger = 0
        · rw [if_pos hb] at h
          simp only [Option.some.injEq, Prod.mk.injEq] at h
          obtain ⟨rfl, rfl⟩ := h
          rw [hbc, hb]
          rfl
        · rw [if_neg hb] at h
          have hlel : (castle_da_rq_iter_skip l
              (castle_object_btree_key_skip a.k start dim bigger)).length ≤ n := by
            have := (List.dropWhile_sublist (l := l) (fun e =>
              match castle_object_btree_key_compare e.k
                (castle_object_btree_key_skip a.k start dim bigger) with
              | some c => decide (c < 0)
              | none => false)).length_le
            simp only [castle_da_rq_iter_skip]
            simp only [List.length_cons] at hlen
            omega
          exact ih _ hlel e rest h

theorem rq_iter_emitted_sublist (start stop : c_vl_okey) :
    ∀ (n : Nat) (entries : List RqEntry), entries.length ≤ n →
      List.Sublist (castle_objects_rq_iter_emitted start stop entries) entries := by
  intro n
  induction n with
  | zero =>
    intro entries hlen
    have h0 : entries = [] := List.length_eq_zero.mp (by omega)
    subst h0
    rw [castle_objects_rq_iter_emitted]
    simp [castle_objects_rq_iter_has_next_loop]
  | succ n ih =>
    intro entries hlen
    rw [castle_objects_rq_iter_emitted]
    rcases hl : castle_objects_rq_iter_has_next_loop start stop entries with _ | ⟨e, rest⟩
    · exact List.nil_sublist _
    · have hsub := rq_iter_loop_sublist start stop (n + 1) entries hlen e rest hl
      have hrest : rest.length < entries.length := by
        have := hsub.length_le
        simp only [List.length_cons] at this
        omega
      simp only
      rw [dif_pos hrest]
      have hrn : rest.length ≤ n := by omega
      have htail := ih rest hrn
      exact ((htail.cons₂ e).trans hsub)

theorem rq_iter_emitted_bounds_zero (start stop : c_vl_okey) :
    ∀ (n : Nat) (entries : List RqEntry), entries.length ≤ n →
      ∀ e ∈ castle_objects_rq_iter_emitted start stop entries,
        (castle_object_btree_key_bounds_check e.k start stop).map Prod.fst = some 0 := by
  intro n
  induction n with
  | zero =>
    intro entries hlen e he
    have h0 : entries = [] := List.length_eq_zero.mp (by omega)
    subst h0
    rw [castle_objects_rq_iter_emitted] at he
    simp [castle_objects_rq_iter_has_next_loop] at he
  | succ n ih =>
    intro entries hlen e he
    rw [castle_objects_rq_iter_emitted] at he
    rcases hl : castle_objects_rq_iter_has_next_loop start stop entries with _ | ⟨e0, rest⟩
    · rw [hl] at he
      simp at he
    · rw [hl] at he
      simp only at he
      have hsub := rq_iter_loop_sublist start stop (n + 1) entries hlen e0 rest hl
      have hrest : rest.length < entries.length := by
        have := hsub.length_le
        simp only [List.length_cons] at this
        omega
      rw [dif_pos hrest] at he
      rcases List.mem_cons.mp he with rfl | he
      · exact rq_iter_loop_bounds_zero start stop (n + 1) entries hlen e rest hl
      · exact ih rest (by omega) e he

/-- C4: every entry emitted by the range iterator bounds-checks to `0`
against `[start, stop]`, and (assuming the inner DA iterator is sorted)
entries are emitted in strictly ascending B-tree compare order.  The
hypotheses on the query mirror the claim: non-empty dimensions and matching
dimension counts in the start/stop object keys. -/
theorem rq_iter_emits_in_bounds_ascending (start stop : c_vl_okey)
    (entries : List RqEntry)
    (hdims : start.dims.length = stop.dims.length)
    (hne : (∀ d ∈ start.dims, d ≠ []) ∧ (∀ d ∈ stop.dims, d ≠ []))
    (hsorted : entries.Pairwise RqEntryLt) :
    (castle_objects_rq_iter_emitted start stop entries).Pairwise RqEntryLt ∧
    ∀ e ∈ castle_objects_rq_iter_emitted start stop entries,
      (castle_object_btree_key_bounds_check e.k start stop).map Prod.fst = some 0 := by
  constructor
  · exact List.Pairwise.sublist
      (rq_iter_emitted_sublist start stop entries.length entries le_rfl) hsorted
  · exact rq_iter_emitted_bounds_zero start stop entries.length entries le_rfl

/-- Witness for C4 at a concrete single-entry stream and 1-dimensional
query. -/
theorem rq_iter_emits_witness :
    ((c_vl_okey.mk [[2]]).dims.length = (c_vl_okey.mk [[3]]).dims.length ∧
     ((∀ d ∈ (c_vl_okey.mk [[2]]).dims, d ≠ []) ∧ (∀ d ∈ (c_vl_okey.mk [[3]]).dims, d ≠ [])) ∧
     List.Pairwise RqEntryLt [RqEntry.mk (castle_object_key_convert ⟨[[2]]⟩) 0 .tombstone]) ∧
    ((castle_objects_rq_iter_emitted ⟨[[2]]⟩ ⟨[[3]]⟩
        [RqEntry.mk (castle_object_key_convert ⟨[[2]]⟩) 0 .tombstone]).Pairwise RqEntryLt ∧
     ∀ e ∈ castle_objects_rq_iter_emitted ⟨[[2]]⟩ ⟨[[3]]⟩
        [RqEntry.mk (castle_object_key_convert ⟨[[2]]⟩) 0 .tombstone],
      (castle_object_btree_key_bounds_check e.k ⟨[[2]]⟩ ⟨[[3]]⟩).map Prod.fst = some 0) :=
  ⟨⟨by decide, ⟨by decide, by decide⟩, by simp⟩,
   rq_iter_emits_in_bounds_ascending ⟨[[2]]⟩ ⟨[[3]]⟩
     [RqEntry.mk (castle_object_key_convert ⟨[[2]]⟩) 0 .tombstone]
     (by decide) ⟨by decide, by decide⟩ (by simp)⟩

/-- C2 (failing input): an ONDISK replace of `15 * C_BLK_SIZE` bytes pins a
first window of 10 blocks; when it fills, `5 * C_BLK_SIZE` bytes remain and
`castle_object_write_next_cdb` places the second window only 5 blocks past
the first window's start — overlapping its last five blocks — because it
derives `nr_blocks` from the remaining length instead of the 10 blocks the
filled window held.  The get path continues at `+10`, so the second write
and read windows disagree.  With at least `10 * C_BLK_SIZE` bytes remaining
(every boundary of the 70-block replace of S6) both paths agree at `+10`. -/
theorem write_next_cdb_divergence :
    castle_object_write_buffer_nr_blocks (15 * C_BLK_SIZE) = 10 ∧
    castle_object_write_next_cdb ⟨77, 100⟩ (5 * C_BLK_SIZE) = ⟨77, 105⟩ ∧
    castle_object_get_next_cdb ⟨77, 100⟩ = ⟨77, 110⟩ ∧
    castle_object_write_next_cdb ⟨77, 100⟩ (60 * C_BLK_SIZE) = ⟨77, 110⟩ := by
  refine ⟨?_, ?_, ?_, ?_⟩ <;> decide

theorem versionOpsRun_cnt (ops : List VersionOp) (s : VersionsModuleState) :
    (versionOpsRun s ops).version_cnt = s.version_cnt + ops.countP (VersionOp.isAdd ·) := by
  induction ops generalizing s with
  | nil => simp [versionOpsRun]
  | cons op ops ih =>
    cases op with
    | add =>
      show (versionOpsRun ⟨s.version_cnt + 1⟩ ops).version_cnt = _
      rw [ih ⟨s.version_cnt + 1⟩, List.countP_cons, if_pos (by rfl)]
      show s.version_cnt + 1 + ops.countP (VersionOp.isAdd ·) = _
      omega
    | deleteTree v =>
      show (versionOpsRun s ops).version_cnt = _
      rw [ih s, List.countP_cons, if_neg (fun hc => Bool.noConfusion hc)]
      omega

/-- C10: the 900-version quota is charged per `castle_version_add` call over
the whole module lifetime: after any operation sequence the counter equals
the cumulative number of add calls (bootstrap root and restored versions
included), `castle_version_tree_delete` never decrements it, and once 900
cumulative adds have occurred every further add fails its quota check. -/
theorem version_add_quota_lifetime (ops : List VersionOp)
    (h900 : 900 ≤ ops.countP (VersionOp.isAdd ·)) :
    (versionOpsRun ⟨0⟩ ops).version_cnt = ops.countP (VersionOp.isAdd ·) ∧
    (∀ s v, versionOpStep s (.deleteTree v) = s) ∧
    (castle_version_add_quota (versionOpsRun ⟨0⟩ ops)).2 = false := by
  have hcnt := versionOpsRun_cnt ops ⟨0⟩
  simp only [Nat.zero_add] at hcnt
  refine ⟨hcnt, fun s v => rfl, ?_⟩
  simp only [castle_version_add_quota, decide_eq_false_iff_not]
  omega

theorem countP_add_replicate (n : Nat) :
    (List.replicate n VersionOp.add).countP (VersionOp.isAdd ·) = n := by
  induction n with
  | zero => rfl
  | succ n ih => rw [List.replicate_succ, List.countP_cons, if_pos (by rfl), ih]

/-- Witness for C10: after exactly 900 adds the next add fails. -/
theorem version_add_quota_lifetime_witness :
    900 ≤ (List.replicate 900 VersionOp.add).countP (VersionOp.isAdd ·) ∧
    ((versionOpsRun ⟨0⟩ (List.replicate 900 VersionOp.add)).version_cnt =
        (List.replicate 900 VersionOp.add).countP (VersionOp.isAdd ·) ∧
     (∀ s v, versionOpStep s (.deleteTree v) = s) ∧
     (castle_version_add_quota (versionOpsRun ⟨0⟩ (List.replicate 900 VersionOp.add))).2 =
        false) :=
  ⟨by rw [countP_add_replicate],
   version_add_quota_lifetime (List.replicate 900 VersionOp.add)
     (by rw [countP_add_replicate])⟩

/-- C6 (counterexample): deleting version 1, which is attached, does not
return an "attached" error to the caller — it trips the kernel assertion
`BUG_ON(test_bit(CV_ATTACHED_BIT, &v->flags))` in `castle_version_delete`. -/
theorem version_tree_delete_attached_bug :
    castle_version_tree_delete
      (DVTree.node 0 false (DVTree.node 1 true .nil .nil) .nil) 1 = .bug ∧
    ∀ e : Int, castle_version_tree_delete
      (DVTree.node 0 false (DVTree.node 1 true .nil .nil) .nil) 1 ≠ .err e :=
  ⟨by decide, fun e he => by
    rw [(by decide : castle_version_tree_delete
      (DVTree.node 0 false (DVTree.node 1 true .nil .nil) .nil) 1 = .bug)] at he
    exact DeleteResult.noConfusion he⟩

/-- C6 (amended): `castle_version_tree_delete` returns `-EINVAL` to the
caller when the version id is not in the registry (the registry is
untouched: the function returns before any mutation); when the version or
any version in its subtree is attached, the deletion dies on a kernel
`BUG_ON` instead of returning an error. -/
theorem version_tree_delete_failure_modes (root : DVTree) (ver : Nat) :
    (root.findVersion ver = none →
      castle_version_tree_delete root ver = .err (-EINVAL)) ∧
    (∀ v, root.findVersion ver = some v → castle_subtree_delete_ok v = false →
      castle_version_tree_delete root ver = .bug) := by
  constructor
  · intro h
    unfold castle_version_tree_delete
    rw [h]
  · intro v h hbad
    unfold castle_version_tree_delete
    rw [h]
    simp only [hbad, if_pos]

/-- Witness for C6's amended statement at concrete registries. -/
theorem version_tree_delete_failure_modes_witness :
    ((DVTree.node 0 false .nil .nil).findVersion 5 = none ∧
     castle_version_tree_delete (DVTree.node 0 false .nil .nil) 5 = .err (-EINVAL)) ∧
    ((DVTree.node 0 false (DVTree.node 1 true .nil .nil) .nil).findVersion 1 =
        some (DVTree.node 1 true .nil .nil) ∧
     castle_subtree_delete_ok (DVTree.node 1 true .nil .nil) = false ∧
     castle_version_tree_delete
        (DVTree.node 0 false (DVTree.node 1 true .nil .nil) .nil) 1 = .bug) :=
  ⟨⟨by decide,
    (version_tree_delete_failure_modes (DVTree.node 0 false .nil .nil) 5).1 (by decide)⟩,
   ⟨by decide, by decide,
    (version_tree_delete_failure_modes
        (DVTree.node 0 false (DVTree.node 1 true .nil .nil) .nil) 1).2
      (DVTree.node 1 true .nil .nil) (by decide) (by decide)⟩⟩

/-- C7 (counterexample): when the allocator returns the invalid cdb, the
iterator is cancelled with `-ENOMEM` — not with the no-space errno
`-ENOSPC` the claim's NoSpace kind denotes. -/
theorem move_block_nospace_counterexample :
    castle_move_block false INVAL_DISK_BLK true = .cancelled (-ENOMEM) ∧
    castle_move_block false INVAL_DISK_BLK true ≠ .cancelled (-ENOSPC) := by
  decide

/-- C7 (amended): an `INVALID_CDB` destination cancels the tree iterator
with `-ENOMEM` (the printk reads "couldn't find free block"), while a
backing-device I/O error — the source read completing not-uptodate —
cancels it with `-EIO_errno`. -/
theorem move_block_cancel_codes (dest : c_disk_blk) (u : Bool)
    (hdest : DISK_BLK_INVAL dest = false) :
    castle_move_block false INVAL_DISK_BLK u = .cancelled (-ENOMEM) ∧
    castle_move_block false dest false = .cancelled (-EIO_errno) := by
  constructor
  · unfold castle_move_block
    rw [if_neg (by simp), if_pos (by decide)]
  · unfold castle_move_block
    rw [if_neg (by simp), hdest]
    rfl

/-- Witness for C7's amended statement at a concrete valid destination. -/
theorem move_block_cancel_codes_witness :
    DISK_BLK_INVAL (c_disk_blk.mk 1 2) = false ∧
    (castle_move_block false INVAL_DISK_BLK true = .cancelled (-ENOMEM) ∧
     castle_move_block false (c_disk_blk.mk 1 2) false = .cancelled (-EIO_errno)) :=
  ⟨by decide, move_block_cancel_codes (c_disk_blk.mk 1 2) true (by decide)⟩

/-- C8 (failing input): on the path where the source read completes
not-uptodate, `castle_do_transfer_callback` cancels the iterator and
returns, leaving both the source and the destination buffer locked and
referenced; every other completion path is balanced. -/
theorem move_block_pin_leak :
    ¬ pinBalanced (castle_move_block_pin_trace false (c_disk_blk.mk 1 2) false) ∧
    pinBalanced (castle_move_block_pin_trace false (c_disk_blk.mk 1 2) true) ∧
    pinBalanced (castle_move_block_pin_trace false INVAL_DISK_BLK false) ∧
    pinBalanced (castle_move_block_pin_trace false INVAL_DISK_BLK true) ∧
    pinBalanced (castle_move_block_pin_trace true (c_disk_blk.mk 1 2) false) := by
  unfold pinBalanced
  refine ⟨?_, ?_, ?_, ?_, ?_⟩ <;> decide

/-- C9 (counterexample): with a first slave whose superblock fails magic
validation and a second slave with a valid superblock, the superblocks are
not byte-equal across the slaves, yet mount's superblock scan succeeds —
the invalid slave is skipped, not a mount failure. -/
theorem fs_init_skips_invalid_counterexample :
    castle_fs_superblock_validate ⟨0, 0, 0, 0, 0, 0, 0, 0, 0, 0, 0, 0, 0⟩ ≠ 0 ∧
    (⟨0, 0, 0, 0, 0, 0, 0, 0, 0, 0, 0, 0, 0⟩ : castle_fs_superblock) ≠
      ⟨0x19731121, 0x19880624, 0x19821120, 1, 2, 3, 4, 5, 6, 7, 8, 9, 10⟩ ∧
    castle_fs_init
        [some ⟨0, 0, 0, 0, 0, 0, 0, 0, 0, 0, 0, 0, 0⟩,
         some ⟨0x19731121, 0x19880624, 0x19821120, 1, 2, 3, 4, 5, 6, 7, 8, 9, 10⟩] =
      .ok ⟨0x19731121, 0x19880624, 0x19821120, 1, 2, 3, 4, 5, 6, 7, 8, 9, 10⟩ :=
  ⟨by decide, by decide, rfl⟩

theorem validSuperblocks_cons_none (r : Option castle_fs_superblock)
    (rest : List (Option castle_fs_superblock))
    (h : castle_fs_superblock_read r = none) :
    validSuperblocks (r :: rest) = validSuperblocks rest := by
  unfold validSuperblocks
  rw [List.filterMap_cons, h]

theorem validSuperblocks_cons_some (r : Option castle_fs_superblock)
    (rest : List (Option castle_fs_superblock)) (fs_sb : castle_fs_superblock)
    (h : castle_fs_superblock_read r = some fs_sb) :
    validSuperblocks (r :: rest) = fs_sb :: validSuperblocks rest := by
  unfold validSuperblocks
  rw [List.filterMap_cons, h]

theorem fs_init_scan_all_eq (slaves : List (Option castle_fs_superblock))
    (sb0 : castle_fs_superblock) :
    (∀ s ∈ validSuperblocks slaves, s = sb0) →
    castle_fs_init_scan slaves (some sb0) = .ok sb0 := by
  induction slaves with
  | nil => intro _; rfl
  | cons r rest ih =>
    intro hall
    rcases hr : castle_fs_superblock_read r with _ | fs_sb
    · rw [validSuperblocks_cons_none r rest hr] at hall
      simp only [castle_fs_init_scan, hr]
      exact ih hall
    · rw [validSuperblocks_cons_some r rest fs_sb hr] at hall
      have hfs : fs_sb = sb0 := hall fs_sb (List.mem_cons_self _ _)
      simp only [castle_fs_init_scan, hr]
      rw [if_neg (by simp [hfs])]
      exact ih fun s hs => hall s (List.mem_cons_of_mem _ hs)

theorem fs_init_scan_some_ok (slaves : List (Option castle_fs_superblock))
    (sb0 sb : castle_fs_superblock) :
    castle_fs_init_scan slaves (some sb0) = .ok sb →
    sb = sb0 ∧ ∀ s ∈ validSuperblocks slaves, s = sb0 := by
  induction slaves with
  | nil =>
    intro h
    simp only [castle_fs_init_scan, Except.ok.injEq] at h
    exact ⟨h.symm, by simp [validSuperblocks]⟩
  | cons r rest ih =>
    intro h
    rcases hr : castle_fs_superblock_read r with _ | fs_sb
    · simp only [castle_fs_init_scan, hr] at h
      obtain ⟨h1, h2⟩ := ih h
      rw [validSuperblocks_cons_none r rest hr]
      exact ⟨h1, h2⟩
    · simp only [castle_fs_init_scan, hr] at h
      by_cases hfs : fs_sb = sb0
      · rw [if_neg (by simp [hfs])] at h
        obtain ⟨h1, h2⟩ := ih h
        rw [validSuperblocks_cons_some r rest fs_sb hr]
        refine ⟨h1, ?_⟩
        intro s hs
        rcases List.mem_cons.mp hs with rfl | hs
        · exact hfs
        · exact h2 s hs
      · rw [if_pos hfs] at h
        exact Except.noConfusion h

theorem fs_init_scan_none_ok (slaves : List (Option castle_fs_superblock))
    (sb : castle_fs_superblock) :
    castle_fs_init_scan slaves none = .ok sb →
    (validSuperblocks slaves).head? = some sb ∧
      ∀ s ∈ validSuperblocks slaves, s = sb := by
  induction slaves with
  | nil =>
    intro h
    exact Except.noConfusion h
  | cons r rest ih =>
    intro h
    rcases hr : castle_fs_superblock_read r with _ | fs_sb
    · simp only [castle_fs_init_scan, hr] at h
      rw [validSuperblocks_cons_none r rest hr]
      exact ih h
    · simp only [castle_fs_init_scan, hr] at h
      obtain ⟨h1, h2⟩ := fs_init_scan_some_ok rest fs_sb sb h
      subst h1
      rw [validSuperblocks_cons_some r rest sb hr]
      refine ⟨rfl, ?_⟩
      intro s hs
      rcases List.mem_cons.mp hs with rfl | hs
      · rfl
      · exact h2 s hs

theorem fs_init_scan_none_agree (slaves : List (Option castle_fs_superblock))
    (sb : castle_fs_superblock) :
    (validSuperblocks slaves).head? = some sb →
    (∀ s ∈ validSuperblocks slaves, s = sb) →
    castle_fs_init_scan slaves none = .ok sb := by
  induction slaves with
  | nil =>
    intro hh _
    simp [validSuperblocks] at hh
  | cons r rest ih =>
    intro hh hall
    rcases hr : castle_fs_superblock_read r with _ | fs_sb
    · rw [validSuperblocks_cons_none r rest hr] at hh hall
      simp only [castle_fs_init_scan, hr]
      exact ih hh hall
    · rw [validSuperblocks_cons_some r rest fs_sb hr] at hh hall
      simp only [List.head?_cons, Option.some.injEq] at hh
      subst hh
      simp only [castle_fs_init_scan, hr]
      exact fs_init_scan_all_eq rest fs_sb fun s hs => hall s (List.mem_cons_of_mem _ hs)

theorem fs_init_scan_none_empty (slaves : List (Option castle_fs_superblock)) :
    validSuperblocks slaves = [] →
    castle_fs_init_scan slaves none = .error (-ENOENT) := by
  induction slaves with
  | nil => intro _; rfl
  | cons r rest ih =>
    intro hv
    rcases hr : castle_fs_superblock_read r with _ | fs_sb
    · rw [validSuperblocks_cons_none r rest hr] at hv
      simp only [castle_fs_init_scan, hr]
      exact ih hv
    · rw [validSuperblocks_cons_some r rest fs_sb hr] at hv
      exact absurd hv (by simp)

theorem fs_init_scan_some_mismatch (slaves : List (Option castle_fs_superblock))
    (sb0 : castle_fs_superblock) :
    (∃ s ∈ validSuperblocks slaves, s ≠ sb0) →
    castle_fs_init_scan slaves (some sb0) = .error (-EINVAL) := by
  induction slaves with
  | nil =>
    intro ⟨s, hs, _⟩
    simp [validSuperblocks] at hs
  | cons r rest ih =>
    intro ⟨s, hs, hsne⟩
    rcases hr : castle_fs_superblock_read r with _ | fs_sb
    · rw [validSuperblocks_cons_none r rest hr] at hs
      simp only [castle_fs_init_scan, hr]
      exact ih ⟨s, hs, hsne⟩
    · rw [validSuperblocks_cons_some r rest fs_sb hr] at hs
      rcases List.mem_cons.mp hs with rfl | hs
      · simp only [castle_fs_init_scan, hr]
        rw [if_pos hsne]
      · by_cases hfs : fs_sb = sb0
        · simp only [castle_fs_init_scan, hr]
          rw [if_neg (by simp [hfs])]
          exact ih ⟨s, hs, hsne⟩
        · simp only [castle_fs_init_scan, hr]
          rw [if_pos hfs]

theorem fs_init_scan_none_mismatch (slaves : List (Option castle_fs_superblock))
    (sb : castle_fs_superblock) :
    (validSuperblocks slaves).head? = some sb →
    (∃ s ∈ validSuperblocks slaves, s ≠ sb) →
    castle_fs_init_scan slaves none = .error (-EINVAL) := by
  induction slaves with
  | nil =>
    intro hh _
    simp [validSuperblocks] at hh
  | cons r rest ih =>
    intro hh hex
    rcases hr : castle_fs_superblock_read r with _ | fs_sb
    · rw [validSuperblocks_cons_none r rest hr] at hh hex
      simp only [castle_fs_init_scan, hr]
      exact ih hh hex
    · rw [validSuperblocks_cons_some r rest fs_sb hr] at hh hex
      simp only [List.head?_cons, Option.some.injEq] at hh
      subst hh
      obtain ⟨s, hs, hsne⟩ := hex
      rcases List.mem_cons.mp hs with rfl | hs
      · exact absurd rfl hsne
      · simp only [castle_fs_init_scan, hr]
        exact fs_init_scan_some_mismatch rest fs_sb ⟨s, hs, hsne⟩

/-- C9 (amended): mount's superblock scan compares only successfully-read,
magic-valid FS superblocks.  Slaves whose superblock fails to read or
validate are skipped; the scan fails `-ENOENT` when no slave yields a valid
superblock; it succeeds exactly when every valid superblock byte-compares
equal to the first valid one (which becomes `castle_fs_super`); it fails
`-EINVAL` when some valid superblock differs from the first valid one. -/
theorem fs_init_superblock_agreement (slaves : List (Option castle_fs_superblock)) :
    (validSuperblocks slaves = [] → castle_fs_init slaves = .error (-ENOENT)) ∧
    (∀ sb, castle_fs_init slaves = .ok sb →
       (validSuperblocks slaves).head? = some sb ∧
       ∀ s ∈ validSuperblocks slaves, s = sb) ∧
    (∀ sb, (validSuperblocks slaves).head? = some sb →
       (∀ s ∈ validSuperblocks slaves, s = sb) → castle_fs_init slaves = .ok sb) ∧
    (∀ sb, (validSuperblocks slaves).head? = some sb →
       (∃ s ∈ validSuperblocks slaves, s ≠ sb) →
       castle_fs_init slaves = .error (-EINVAL)) := by
  unfold castle_fs_init
  by_cases hsl : slaves = []
  · subst hsl
    refine ⟨fun _ => by simp, ?_, ?_, ?_⟩
    · intro sb h
      simp at h
    · intro sb h
      simp [validSuperblocks] at h
    · intro sb h _
      simp [validSuperblocks] at h
  · rw [if_neg hsl]
    exact ⟨fs_init_scan_none_empty slaves, fun sb => fs_init_scan_none_ok slaves sb,
      fun sb => fs_init_scan_none_agree slaves sb,
      fun sb => fs_init_scan_none_mismatch slaves sb⟩

/-- Witness for C9's amended statement: two slaves with identical valid
superblocks mount successfully with that superblock saved. -/
theorem fs_init_superblock_agreement_witness :
    ((validSuperblocks
        [some ⟨0x19731121, 0x19880624, 0x19821120, 1, 2, 3, 4, 5, 6, 7, 8, 9, 10⟩,
         some ⟨0x19731121, 0x19880624, 0x19821120, 1, 2, 3, 4, 5, 6, 7, 8, 9, 10⟩]).head? =
      some ⟨0x19731121, 0x19880624, 0x19821120, 1, 2, 3, 4, 5, 6, 7, 8, 9, 10⟩ ∧
     (∀ s ∈ validSuperblocks
        [some ⟨0x19731121, 0x19880624, 0x19821120, 1, 2, 3, 4, 5, 6, 7, 8, 9, 10⟩,
         some ⟨0x19731121, 0x19880624, 0x19821120, 1, 2, 3, 4, 5, 6, 7, 8, 9, 10⟩],
        s = ⟨0x19731121, 0x19880624, 0x19821120, 1, 2, 3, 4, 5, 6, 7, 8, 9, 10⟩)) ∧
    castle_fs_init
        [some ⟨0x19731121, 0x19880624, 0x19821120, 1, 2, 3, 4, 5, 6, 7, 8, 9, 10⟩,
         some ⟨0x19731121, 0x19880624, 0x19821120, 1, 2, 3, 4, 5, 6, 7, 8, 9, 10⟩] =
      .ok ⟨0x19731121, 0x19880624, 0x19821120, 1, 2, 3, 4, 5, 6, 7, 8, 9, 10⟩ :=
  ⟨⟨by decide, by decide⟩,
   (fs_init_superblock_agreement
      [some ⟨0x19731121, 0x19880624, 0x19821120, 1, 2, 3, 4, 5, 6, 7, 8, 9, 10⟩,
       some ⟨0x19731121, 0x19880624, 0x19821120, 1, 2, 3, 4, 5, 6, 7, 8, 9, 10⟩]).2.2.1
     ⟨0x19731121, 0x19880624, 0x19821120, 1, 2, 3, 4, 5, 6, 7, 8, 9, 10⟩
     (by decide) (by decide)⟩

end Castle
